import Mathlib

/-!
Verification of the demolish_dash synchronization core: a shallow embedding of
the room / player / game-session data model, the deterministic seed selector,
the per-minigame elimination-and-ranking convergence step, the relay
persistence handlers and the entity ability state machine, each translated
from the TypeScript/JavaScript sources, together with proofs and refutations
of the specified properties.
-/

namespace DemolishDash

/-- A roster entry as the minigames see it: a `Player` row projected to the
fields used by the convergence algorithm (`player.id`, `player.player_name`,
mirrored into each `Ghost` as `id` and `name`). -/
structure PlayerRec where
  id : String
  name : String
deriving DecidableEq, Repr

/-- One ranking record, as pushed by the minigames and stored in
`game_sessions.results` (src/frontend/src/lib/api.ts, `GameSession.results`).
`points` is kept as an integer since the source computes it with plain JS
subtraction. -/
structure GameResult where
  player_id : String
  player_name : String
  rank : Nat
  points : Int
deriving DecidableEq, Repr

/-! ## Entity ability state (src/frontend/src/core/GameManager.ts `Ghost`) -/

/-- The transient ability state of a `Ghost` entity: the `isDashing` flag and
the `dashCooldown` countdown in milliseconds.  The cooldown is decremented by
the floating-point frame delta, embedded here over the rationals. -/
structure GhostAbility where
  isDashing : Bool
  dashCooldown : Rat
deriving DecidableEq, Repr

/-- `Ghost.activateDash` (GameManager.ts lines 194-202): the dash starts only
when `this.dashCooldown <= 0 && !this.isDashing`; otherwise nothing changes.
(The later `isDashing := false` / `dashCooldown := 2000` reset runs on a
timer after the fixed dash duration and is not part of this transition.) -/
def activateDash (g : GhostAbility) : GhostAbility :=
  if g.dashCooldown ≤ 0 ∧ g.isDashing = false then { g with isDashing := true }
  else g

/-- `Ghost.updateCooldown` (GameManager.ts lines 204-208):
`if (dashCooldown > 0) dashCooldown = Math.max(0, dashCooldown - deltaTime)`. -/
def updateCooldown (g : GhostAbility) (deltaTime : Rat) : GhostAbility :=
  if 0 < g.dashCooldown then
    { g with dashCooldown := max 0 (g.dashCooldown - deltaTime) }
  else g

/-! ## Room status updates (src/frontend/src/core/Room.ts, server PATCH) -/

inductive RoomStatus where
  | waiting
  | playing
  | finished
deriving DecidableEq, Repr

/-- A `rooms` row projected to the fields the status machine touches. -/
structure RoomRow where
  id : String
  room_code : String
  status : RoomStatus
  min_players : Nat
  max_games : Nat
deriving DecidableEq, Repr

/-- `RoomManager.updateRoomStatus` / `PATCH /api/rooms/:roomId`
(Room.ts lines 133-141, server part_000 lines 113-135): the handler runs
`UPDATE rooms SET status = $1` with no guard on the current status, so the
requested status is applied unconditionally. -/
def updateRoomStatus (r : RoomRow) (s : RoomStatus) : RoomRow :=
  { r with status := s }

/-- The only statuses the application layer ever passes to
`updateRoomStatus`: `'playing'` in `handleStartGame` (App.tsx line 185) and
`'finished'` in `handleGameComplete` (App.tsx line 209).  No call site
requests `'waiting'`. -/
def appStatusRequests : List RoomStatus :=
  [RoomStatus.playing, RoomStatus.finished]

/-! ## Minigame start short-circuit -/

/-- The degenerate results pushed by the `players.length < 2` branch: every
present player gets rank 1 and 1 point (TagBombGame.tsx lines 56-65,
PlatformPushGame.tsx lines 60-69, FallingTilesGame.tsx lines 64-73). -/
def shortCircuitResults (ps : List PlayerRec) : List GameResult :=
  ps.map fun p => { player_id := p.id, player_name := p.name, rank := 1, points := 1 }

/-- TagBombGame.tsx lines 56-65: `if (players.length < 2)` the component
immediately calls `onGameComplete` with the degenerate results and returns
before constructing any game state. -/
def tagBombStartCheck (ps : List PlayerRec) : Option (List GameResult) :=
  if ps.length < 2 then some (shortCircuitResults ps) else none

/-- PlatformPushGame.tsx lines 60-69: identical `players.length < 2`
short-circuit. -/
def platformPushStartCheck (ps : List PlayerRec) : Option (List GameResult) :=
  if ps.length < 2 then some (shortCircuitResults ps) else none

/-- FallingTilesGame.tsx lines 64-73: identical `players.length < 2`
short-circuit. -/
def fallingTilesStartCheck (ps : List PlayerRec) : Option (List GameResult) :=
  if ps.length < 2 then some (shortCircuitResults ps) else none

/-- BoulderRunGame (src/unnamed/part_001 lines 166-196): the setup effect
builds the ghost map and schedules the loop unconditionally; there is no
roster-size branch, so game start never short-circuits with degenerate
results. -/
def boulderRunStartCheck (_ps : List PlayerRec) : Option (List GameResult) :=
  none

/-! ## BoulderRun elimination step (src/unnamed/part_001 lines 258-273) -/

/-- A falling boulder: position and radius (part_001 `Boulder`).  Positions
are embedded over the integers; the claims about list membership only need
concrete evaluations of the collision test. -/
structure Boulder where
  x : Int
  y : Int
  radius : Int
deriving DecidableEq, Repr

/-- A ghost's identity and position as the collision scan reads them. -/
structure GhostPos where
  id : String
  x : Int
  y : Int
deriving DecidableEq, Repr

/-- part_001 lines 262-264: `dx*dx + dy*dy <= (b.radius + 20) * (b.radius + 20)`. -/
def boulderCollides (g : GhostPos) (b : Boulder) : Bool :=
  (g.x - b.x) * (g.x - b.x) + (g.y - b.y) * (g.y - b.y)
    ≤ (b.radius + 20) * (b.radius + 20)

/-- The body of `state.ghosts.forEach` in part_001 lines 258-273: the ghost is
skipped when already in the elimination list, but the inner `for` over the
boulders pushes `ghost.id` once per colliding boulder with no further
membership check. -/
def boulderElimGhost (boulders : List Boulder) (elim : List String) (g : GhostPos) :
    List String :=
  if elim.contains g.id then elim
  else boulders.foldl (fun e b => if boulderCollides g b then e ++ [g.id] else e) elim

/-- One tick of the BoulderRun elimination scan over all ghosts. -/
def boulderElimStep (elim : List String) (ghosts : List GhostPos)
    (boulders : List Boulder) : List String :=
  ghosts.foldl (boulderElimGhost boulders) elim

/-- The guarded disconnect-event append shared by the minigames
(TagBombGame.tsx lines 439-450, PlatformPushGame.tsx lines 524-533):
`if (!eliminatedPlayers.includes(playerId)) eliminatedPlayers.push(playerId)`. -/
def disconnectAppend (elim : List String) (pid : String) : List String :=
  if elim.contains pid then elim else elim ++ [pid]

end DemolishDash

namespace DemolishDash

/-- C9: `Ghost.activateDash` enters the dashing state exactly when the
cooldown is at most zero and the ghost is not already dashing, and is a
no-op otherwise; `Ghost.updateCooldown` subtracts the elapsed delta from a
positive cooldown, clamping at zero, and never drives a non-negative
cooldown below zero. -/
theorem ghost_dash_cooldown_spec (g : GhostAbility) (dt : Rat) :
    (g.dashCooldown ≤ 0 ∧ g.isDashing = false →
      activateDash g = { g with isDashing := true }) ∧
    (¬(g.dashCooldown ≤ 0 ∧ g.isDashing = false) → activateDash g = g) ∧
    (0 < g.dashCooldown →
      (updateCooldown g dt).dashCooldown = max 0 (g.dashCooldown - dt)) ∧
    (¬ 0 < g.dashCooldown → updateCooldown g dt = g) ∧
    (0 ≤ g.dashCooldown → 0 ≤ (updateCooldown g dt).dashCooldown) := by
  refine ⟨fun h => ?_, fun h => ?_, fun h => ?_, fun h => ?_, fun h => ?_⟩
  · simp [activateDash, h]
  · simp [activateDash, h]
  · simp [updateCooldown, h]
  · simp [updateCooldown, h]
  · by_cases hc : 0 < g.dashCooldown
    · simp [updateCooldown, hc]
    · simpa [updateCooldown, hc] using h

/-- Witness for `ghost_dash_cooldown_spec` at a concrete ability state. -/
theorem ghost_dash_cooldown_spec_witness :
    activateDash ⟨false, 0⟩ = ⟨true, 0⟩ ∧
    (updateCooldown ⟨false, (5 : Rat)⟩ 2).dashCooldown = max 0 ((5 : Rat) - 2) := by
  have h := ghost_dash_cooldown_spec ⟨false, 0⟩ (2 : Rat)
  have h2 := ghost_dash_cooldown_spec ⟨false, (5 : Rat)⟩ (2 : Rat)
  exact ⟨h.1 (by norm_num), h2.2.2.1 (by norm_num)⟩

end DemolishDash

namespace DemolishDash

/-- C4 counterexample: a single status-update operation takes a `playing`
room straight back to `waiting`, because `PATCH /api/rooms/:roomId` applies
whatever status is requested with no forward-only guard. -/
theorem room_status_regression_counterexample :
    (updateRoomStatus ⟨"r1", "ABC234", RoomStatus.playing, 2, 3⟩ RoomStatus.waiting).status
      = RoomStatus.waiting ∧
    (updateRoomStatus ⟨"r1", "ABC234", RoomStatus.finished, 2, 3⟩ RoomStatus.playing).status
      = RoomStatus.playing := by
  exact ⟨rfl, rfl⟩

/-- C4 amended: the status-update operation itself is unguarded, so the
forward-only property holds only of the transitions the application actually
requests.  The App layer only ever passes `'playing'` and `'finished'`, so
after any non-empty sequence of application-requested updates a room is
never in `waiting`; in particular no application run takes a room from
`playing` back to `waiting`. -/
theorem room_status_app_requests_never_waiting (r : RoomRow) (l : List RoomStatus)
    (happ : ∀ s ∈ l, s ∈ appStatusRequests) (hne : l ≠ []) :
    (l.foldl updateRoomStatus r).status ≠ RoomStatus.waiting := by
  induction l generalizing r with
  | nil => exact absurd rfl hne
  | cons s rest ih =>
    cases rest with
    | nil =>
      have hs := happ s (by simp)
      simp only [List.foldl_cons, List.foldl_nil]
      simp only [appStatusRequests, List.mem_cons, List.mem_singleton] at hs
      rcases hs with h | h | h
      · subst h; simp [updateRoomStatus]
      · subst h; simp [updateRoomStatus]
      · exact absurd h (by simp)
    | cons s2 rest2 =>
      have happ2 : ∀ t ∈ s2 :: rest2, t ∈ appStatusRequests := by
        intro t ht
        exact happ t (List.mem_cons_of_mem s ht)
      simpa using ih (updateRoomStatus r s) happ2 (by simp)

/-- Witness for `room_status_app_requests_never_waiting` on a concrete run. -/
theorem room_status_app_requests_never_waiting_witness :
    (([RoomStatus.playing, RoomStatus.finished].foldl updateRoomStatus
        ⟨"r1", "ABC234", RoomStatus.waiting, 2, 3⟩).status) ≠ RoomStatus.waiting :=
  room_status_app_requests_never_waiting _ _ (by decide) (by decide)

/-- C7: BoulderRun has no roster-size short-circuit.  At a one-player roster
the other three minigames immediately return the degenerate rank-1 one-point
results, while BoulderRun's start returns nothing and falls through into its
simulation loop. -/
theorem boulderRun_missing_short_circuit :
    boulderRunStartCheck [⟨"p1", "Alice"⟩] = none ∧
    tagBombStartCheck [⟨"p1", "Alice"⟩] = some [⟨"p1", "Alice", 1, 1⟩] ∧
    platformPushStartCheck [⟨"p1", "Alice"⟩] = some [⟨"p1", "Alice", 1, 1⟩] ∧
    fallingTilesStartCheck [⟨"p1", "Alice"⟩] = some [⟨"p1", "Alice", 1, 1⟩] ∧
    boulderRunStartCheck [] = none := by
  refine ⟨rfl, ?_, ?_, ?_, rfl⟩ <;> decide

/-- C5: in BoulderRun's collision scan a ghost overlapping two boulders in
the same tick is appended once per boulder: the elimination list gains a
duplicate, so the append is not idempotent by membership check.  The
disconnect-event append, by contrast, is guarded. -/
theorem boulderRun_duplicate_elimination :
    boulderElimStep [] [⟨"p1", 100, 100⟩] [⟨100, 80, 20⟩, ⟨100, 120, 20⟩]
      = ["p1", "p1"] ∧
    ¬ (boulderElimStep [] [⟨"p1", 100, 100⟩] [⟨100, 80, 20⟩, ⟨100, 120, 20⟩]).Nodup ∧
    disconnectAppend ["p1"] "p1" = ["p1"] := by
  refine ⟨by decide, ?_, by decide⟩
  decide

end DemolishDash

namespace DemolishDash

/-! ## Seed selector (TagBombGame.tsx `simpleHash`, lines 25-33 and 280-289) -/

/-- JS `ToInt32`: reduce an exact integer to the signed 32-bit range, as the
`<<` and `&` operators do to their operands and results. -/
def toInt32 (n : Int) : Int :=
  let m := n % 4294967296
  if m < 2147483648 then m else m - 4294967296

/-- One iteration of the `simpleHash` loop:
`hash = ((hash << 5) - hash) + char; hash = hash & hash`.
`hash << 5` is the 32-bit truncation of `hash * 32`, the subtraction and
addition are exact (the operands are small enough for doubles), and
`hash & hash` truncates the sum back to 32 bits. -/
def hashStep (h : Int) (c : Nat) : Int :=
  toInt32 (toInt32 (h * 32) - h + c)

/-- The signed accumulator of `simpleHash` after folding over the string's
code units, starting from 0. -/
def simpleHashInt (s : String) : Int :=
  s.data.foldl (fun h c => hashStep h c.toNat) 0

/-- `simpleHash` (TagBombGame.tsx lines 25-33): the absolute value of the
folded 32-bit accumulator, hence a non-negative integer. -/
def simpleHash (s : String) : Nat :=
  (simpleHashInt s).natAbs

/-- Lexicographic comparison of char lists by code point, embedding the
ascending `a.id.localeCompare(b.id)` sort key used on the id strings. -/
def charListLe : List Char → List Char → Bool
  | [], _ => true
  | _ :: _, [] => false
  | a :: as, b :: bs => if a < b then true else if b < a then false else charListLe as bs

def strLe (a b : String) : Bool :=
  charListLe a.data b.data

/-- `[...remaining].sort((a, b) => a.id.localeCompare(b.id))`
(TagBombGame.tsx lines 81 and 281): the canonical identity-ascending order
of the remaining participants, via a stable sort. -/
def sortByIdAsc (ps : List PlayerRec) : List PlayerRec :=
  List.insertionSort (fun a b => strLe a.id b.id = true) ps

/-- TagBombGame.tsx lines 81-84 and 280-289: hash the session id (plus, on
re-selection, the elimination count rendered as a string), reduce it modulo
the sorted remaining-participant count, and index the sorted list. -/
def selectBombHolder (sessionId : String) (salt : String)
    (remaining : List PlayerRec) : Option PlayerRec :=
  let sorted := sortByIdAsc remaining
  let seed := simpleHash (sessionId ++ salt)
  sorted.get? (seed % sorted.length)

/-- C2: the seed selection is a total deterministic function of the session
id, the salt and the remaining participants: on every non-empty remaining
list it selects some member of that list, recomputing it with the same
inputs is the very same value, the hash it reduces is non-negative, and on a
singleton remaining list it selects exactly that participant. -/
theorem seed_selection_deterministic (sessionId salt : String)
    (remaining : List PlayerRec) (hne : remaining ≠ []) :
    (∃ p, selectBombHolder sessionId salt remaining = some p ∧ p ∈ remaining) ∧
    selectBombHolder sessionId salt remaining
      = selectBombHolder sessionId salt remaining ∧
    0 ≤ (simpleHash (sessionId ++ salt) : Int) ∧
    (∀ p, remaining = [p] → selectBombHolder sessionId salt remaining = some p) := by
  refine ⟨?_, rfl, Int.ofNat_nonneg _, ?_⟩
  · have hperm : List.Perm (sortByIdAsc remaining) remaining :=
      List.perm_insertionSort _ remaining
    have hlen : (sortByIdAsc remaining).length = remaining.length := hperm.length_eq
    have hpos : 0 < (sortByIdAsc remaining).length := by
      rw [hlen]
      exact List.length_pos.mpr hne
    have hidx : simpleHash (sessionId ++ salt) % (sortByIdAsc remaining).length
        < (sortByIdAsc remaining).length := Nat.mod_lt _ hpos
    refine ⟨(sortByIdAsc remaining).get ⟨_, hidx⟩, ?_,
      hperm.mem_iff.mp (List.get_mem _ _ _)⟩
    simp only [selectBombHolder]
    exact List.get?_eq_get hidx
  · intro p hp
    subst hp
    simp [selectBombHolder, sortByIdAsc, List.insertionSort, List.orderedInsert,
      Nat.mod_one]

/-- Witness for `seed_selection_deterministic` on a concrete roster. -/
theorem seed_selection_deterministic_witness :
    (∃ p, selectBombHolder "sess-1" "" [⟨"p1", "Ann"⟩] = some p ∧
      p ∈ [(⟨"p1", "Ann"⟩ : PlayerRec)]) ∧
    selectBombHolder "sess-1" "" [⟨"p1", "Ann"⟩]
      = selectBombHolder "sess-1" "" [⟨"p1", "Ann"⟩] ∧
    0 ≤ (simpleHash ("sess-1" ++ "") : Int) ∧
    (∀ p, [(⟨"p1", "Ann"⟩ : PlayerRec)] = [p] →
      selectBombHolder "sess-1" "" [⟨"p1", "Ann"⟩] = some p) :=
  seed_selection_deterministic "sess-1" "" [⟨"p1", "Ann"⟩] (by decide)

end DemolishDash

namespace DemolishDash

/-! ## Relay game-state handling (server part_000 lines 502-519, client
TagBombGame.tsx `handleGameStateChange` lines 398-437) -/

/-- A JSON-ish value as it appears in the GameState blob's keys. -/
inductive JVal where
  | num : Int → JVal
  | str : String → JVal
  | bool : Bool → JVal
  | null : JVal
  | arr : List String → JVal
deriving DecidableEq, Repr

/-- The free-form GameState blob: a key/value map, embedded as an
association list. -/
abbrev Blob := List (String × JVal)

/-- The server's `game-state-update` handler (part_000 lines 502-519): it
runs `UPDATE game_sessions SET game_state = $1::jsonb` with the incoming
payload, overwriting the stored blob wholesale — the previously stored blob
is discarded, not merged into. -/
def serverPersistGameState (_stored incoming : Blob) : Blob :=
  incoming

/-- The client's in-memory mirror of the TagBomb game state: the fields of
`gameStateRef.current` that `handleGameStateChange` reads and writes, plus
the roster backing the `ghosts` map. -/
structure TagBombMirror where
  roster : List PlayerRec
  bombHolderId : Option String
  eliminatedPlayers : List String
  bombTimer : Int
  gameCompleted : Bool
  adoptedResults : Option (List GameResult)
deriving DecidableEq, Repr

/-- A `game-state-changed` payload as `handleGameStateChange` inspects it:
each field is independently present or absent (`undefined`).  For
`bomb_holder_id` an explicit `null` is distinct from absence, since the
handler tests `!== undefined`. -/
structure GsUpdate where
  bomb_holder_id : Option (Option String)
  eliminated_players : Option (List String)
  game_completed : Bool
  results : Option (List GameResult)
  bomb_timer : Option Int
deriving DecidableEq, Repr

/-- A payload with every key absent. -/
def GsUpdate.empty : GsUpdate :=
  ⟨none, none, false, none, none⟩

/-- `handleGameStateChange` (TagBombGame.tsx lines 398-437): each recognized
key of the payload is folded into the mirror independently, and only when
present — `bomb_holder_id` when not `undefined`, `eliminated_players` when
truthy (which also re-runs the remaining-players completion check), and
`bomb_timer` when not `undefined`.  Absent keys leave their fields alone. -/
def applyGameStateChange (m : TagBombMirror) (u : GsUpdate) : TagBombMirror :=
  let m1 :=
    match u.bomb_holder_id with
    | some h => { m with bombHolderId := h }
    | none => m
  let m2 :=
    match u.eliminated_players with
    | some elim =>
      let m' := { m1 with eliminatedPlayers := elim }
      let remaining := m'.roster.filter fun g => !(elim.contains g.id)
      if remaining.length = 1 ∧ m'.gameCompleted = false ∧ u.game_completed = true then
        { m' with gameCompleted := true, adoptedResults := u.results }
      else m'
    | none => m1
  match u.bomb_timer with
  | some t => { m2 with bombTimer := t }
  | none => m2

/-- C3 counterexample: persistence on the receiving side is not a key-by-key
merge.  Publishing `{a:1}` then `{b:2}` leaves `{b:2}` in storage while the
reverse order leaves `{a:1}`: the persisted blob depends on publish order,
and the first key is lost rather than merged. -/
theorem game_state_persist_not_merge :
    serverPersistGameState (serverPersistGameState [] [("a", JVal.num 1)])
        [("b", JVal.num 2)]
      ≠ serverPersistGameState (serverPersistGameState [] [("b", JVal.num 2)])
        [("a", JVal.num 1)] ∧
    serverPersistGameState [("a", JVal.num 1)] [("b", JVal.num 2)]
      ≠ [("a", JVal.num 1), ("b", JVal.num 2)] := by
  refine ⟨by decide, by decide⟩

/-- C3 amended: the server persists a `game-state-update` by replacing the
stored blob with the incoming payload (last write wins), while each
receiving client folds the broadcast into its in-memory mirror key-by-key,
touching only the keys present; that client-side fold is per-key commutative
— folding a `bomb_holder_id`-only payload and a `bomb_timer`-only payload in
either order yields the same mirror. -/
theorem game_state_merge_amended (stored incoming : Blob) (m : TagBombMirror)
    (h : Option String) (t : Int) :
    serverPersistGameState stored incoming = incoming ∧
    applyGameStateChange (applyGameStateChange m { GsUpdate.empty with bomb_holder_id := some h })
        { GsUpdate.empty with bomb_timer := some t }
      = applyGameStateChange (applyGameStateChange m { GsUpdate.empty with bomb_timer := some t })
        { GsUpdate.empty with bomb_holder_id := some h } ∧
    applyGameStateChange m GsUpdate.empty = m := by
  refine ⟨rfl, ?_, rfl⟩
  simp [applyGameStateChange, GsUpdate.empty]

end DemolishDash

namespace DemolishDash

/-! ## Room codes and joining (Room.ts lines 4-11 and 50-107) -/

/-- A `players` row (server schema / api.ts `Player`). -/
structure PlayerRow where
  id : String
  room_id : String
  player_name : String
  ghost_color : String
  total_score : Int
deriving DecidableEq, Repr

/-- JS `String.prototype.trim`: strip leading and trailing whitespace. -/
def trimChars (l : List Char) : List Char :=
  (((l.dropWhile Char.isWhitespace).reverse).dropWhile Char.isWhitespace).reverse

/-- `roomCode.trim().toUpperCase()` (Room.ts line 52), also the server-side
`UPPER(TRIM(room_code))` normalization (part_000 line 75). -/
def normalizeCode (s : String) : List Char :=
  (trimChars s.data).map Char.toUpper

/-- The fixed 10-color palette (Room.ts lines 29 and 76). -/
def ghostPalette : List String :=
  ["blue", "purple", "pink", "red", "orange", "yellow", "green", "cyan", "white", "gray"]

/-- `GET /api/rooms/:roomCode` (part_000 lines 63-92): look up a room whose
normalized code equals the normalized request parameter. -/
def findRoomByCode (rooms : List RoomRow) (code : List Char) : Option RoomRow :=
  rooms.find? fun r => normalizeCode r.room_code == code

/-- `GET /api/rooms/:roomId/players` (part_000 lines 159-176): the members of
one room. -/
def roomPlayers (tbl : List PlayerRow) (roomId : String) : List PlayerRow :=
  tbl.filter fun p => p.room_id == roomId

/-- Room.ts lines 75-77: the palette filtered down to colors not used by any
existing member of the room. -/
def availableColorsFor (tbl : List PlayerRow) (roomId : String) : List String :=
  ghostPalette.filter fun c =>
    !(((roomPlayers tbl roomId).map PlayerRow.ghost_color).contains c)

/-- `RoomManager.joinRoom` (Room.ts lines 50-107): normalize the code and
reject unless it has exactly 6 characters, look the room up, reject unless
its status is `waiting`, fetch the room's players, reject when no palette
color is unused or the roster already has 10 players, then create the player
with a color drawn from the unused ones.  `draw` stands for the result of
`Math.floor(Math.random() * availableColors.length)`, and `newId` for the id
the insert returns.  A `none` result is a rejection: the player insert is
never reached. -/
def joinRoom (rooms : List RoomRow) (tbl : List PlayerRow)
    (roomCode playerName newId : String) (draw : Nat) : Option (RoomRow × PlayerRow) :=
  let code := normalizeCode roomCode
  if code.length ≠ 6 then none
  else
    match findRoomByCode rooms code with
    | none => none
    | some room =>
      if room.status ≠ RoomStatus.waiting then none
      else
        let existing := roomPlayers tbl room.id
        let available := availableColorsFor tbl room.id
        if available.length = 0 then none
        else if 10 ≤ existing.length then none
        else
          match available.get? draw with
          | some c => some (room, ⟨newId, room.id, playerName, c, 0⟩)
          | none => none

/-- The players table after a join attempt: `POST /api/players` appends a row
exactly when `joinRoom` reaches the insert; a rejected attempt leaves the
table untouched. -/
def playersAfterJoin (rooms : List RoomRow) (tbl : List PlayerRow)
    (roomCode playerName newId : String) (draw : Nat) : List PlayerRow :=
  match joinRoom rooms tbl roomCode playerName newId draw with
  | some (_, p) => tbl ++ [p]
  | none => tbl

/-- C6: a join against a room that is not `waiting`, or whose roster already
has 10 players, or with no unused palette color, is rejected and creates no
player row; a successful join returns the found room and a new member whose
color is unused by every existing member of that room. -/
theorem joinRoom_guards (rooms : List RoomRow) (tbl : List PlayerRow)
    (roomCode playerName newId : String) (draw : Nat) (room : RoomRow)
    (hfind : findRoomByCode rooms (normalizeCode roomCode) = some room) :
    (room.status ≠ RoomStatus.waiting →
      joinRoom rooms tbl roomCode playerName newId draw = none) ∧
    (10 ≤ (roomPlayers tbl room.id).length →
      joinRoom rooms tbl roomCode playerName newId draw = none) ∧
    (availableColorsFor tbl room.id = [] →
      joinRoom rooms tbl roomCode playerName newId draw = none) ∧
    (∀ r p, joinRoom rooms tbl roomCode playerName newId draw = some (r, p) →
      r = room ∧ p.room_id = room.id ∧
      p.ghost_color ∉ (roomPlayers tbl room.id).map PlayerRow.ghost_color ∧
      playersAfterJoin rooms tbl roomCode playerName newId draw = tbl ++ [p]) ∧
    (joinRoom rooms tbl roomCode playerName newId draw = none →
      playersAfterJoin rooms tbl roomCode playerName newId draw = tbl) := by
  refine ⟨fun h => ?_, fun h => ?_, fun h => ?_, fun r p hsome => ?_, fun h => ?_⟩
  · simp [joinRoom, hfind, h]
  · simp [joinRoom, hfind, h]
  · simp [joinRoom, hfind, h]
  · have hmain : r = room ∧ p.room_id = room.id ∧
        p.ghost_color ∈ availableColorsFor tbl room.id := by
      simp only [joinRoom, hfind] at hsome
      split_ifs at hsome with h1 h2 h3 h4
      cases hget : (availableColorsFor tbl room.id).get? draw with
      | none => rw [hget] at hsome; simp at hsome
      | some c =>
        rw [hget] at hsome
        simp only [Option.some.injEq, Prod.mk.injEq] at hsome
        obtain ⟨hr, hp⟩ := hsome
        subst hr; subst hp
        exact ⟨rfl, rfl, List.get?_mem hget⟩
    obtain ⟨hr, hrid, hcol⟩ := hmain
    have hnotused : p.ghost_color ∉ (roomPlayers tbl room.id).map PlayerRow.ghost_color := by
      have := List.of_mem_filter hcol
      simpa using this
    exact ⟨hr, hrid, hnotused, by simp [playersAfterJoin, hsome]⟩
  · simp [playersAfterJoin, h]

/-- Witness for `joinRoom_guards`: one concrete table with a `playing` room
whose join attempt is rejected, leaving the players table unchanged. -/
theorem joinRoom_guards_witness :
    joinRoom [⟨"r1", "ABC234", RoomStatus.playing, 2, 3⟩] [] "abc234" "Bea" "p9" 0 = none ∧
    playersAfterJoin [⟨"r1", "ABC234", RoomStatus.playing, 2, 3⟩] [] "abc234" "Bea" "p9" 0 = [] := by
  have h := joinRoom_guards [⟨"r1", "ABC234", RoomStatus.playing, 2, 3⟩] []
    "abc234" "Bea" "p9" 0 ⟨"r1", "ABC234", RoomStatus.playing, 2, 3⟩ (by decide)
  have h1 := h.1 (by decide)
  exact ⟨h1, h.2.2.2.2 h1⟩

end DemolishDash

namespace DemolishDash

/-- The room-code alphabet (Room.ts line 5): 32 characters, omitting the
confusable `I`, `O`, `0`, `1`. -/
def roomCodeAlphabet : List Char :=
  "ABCDEFGHJKLMNPQRSTUVWXYZ23456789".data

/-- JS `String.prototype.charAt`: the one-character string at the index, or
the empty string when the index is out of range. -/
def jsCharAt (l : List Char) (i : Nat) : List Char :=
  match l.get? i with
  | some c => [c]
  | none => []

/-- `RoomManager.generateRoomCode` (Room.ts lines 4-11): six iterations of
`code += chars.charAt(Math.floor(Math.random() * chars.length))`.  `draws`
stands for the six floor values, each in `[0, 32)`. -/
def generateRoomCode (draws : List Nat) : List Char :=
  draws.foldl (fun code d => code ++ jsCharAt roomCodeAlphabet d) []

/-- Folding the code builder from any accumulator: in-range draws append
exactly one alphabet character each. -/
theorem generateRoomCode_foldl_spec (draws : List Nat) (acc : List Char)
    (hin : ∀ d ∈ draws, d < 32) :
    (draws.foldl (fun code d => code ++ jsCharAt roomCodeAlphabet d) acc).length
        = acc.length + draws.length ∧
    ∀ ch ∈ draws.foldl (fun code d => code ++ jsCharAt roomCodeAlphabet d) acc,
      ch ∈ acc ∨ ch ∈ roomCodeAlphabet := by
  induction draws generalizing acc with
  | nil => exact ⟨by simp, fun ch hch => Or.inl hch⟩
  | cons d rest ih =>
    have hd : d < 32 := hin d (by simp)
    have hd' : d < roomCodeAlphabet.length := by
      simpa [roomCodeAlphabet] using hd
    have hchar : jsCharAt roomCodeAlphabet d = [roomCodeAlphabet.get ⟨d, hd'⟩] := by
      unfold jsCharAt
      rw [List.get?_eq_get hd']
    have hrest : ∀ x ∈ rest, x < 32 := fun x hx => hin x (List.mem_cons_of_mem d hx)
    obtain ⟨ihlen, ihmem⟩ := ih (acc ++ jsCharAt roomCodeAlphabet d) hrest
    refine ⟨?_, ?_⟩
    · simp only [List.foldl_cons]
      rw [ihlen, hchar]
      simp
      omega
    · intro ch hch
      simp only [List.foldl_cons] at hch
      rcases ihmem ch hch with hacc | halpha
      · rw [hchar] at hacc
        rcases List.mem_append.mp hacc with h1 | h1
        · exact Or.inl h1
        · right
          rcases List.mem_singleton.mp h1 with rfl
          exact List.get_mem _ _ _
      · exact Or.inr halpha

/-- C10: with six in-range draws the generated room code has exactly 6
characters, all from the fixed 32-character alphabet, which omits `I`, `O`,
`0` and `1`; and a join attempt whose normalized code does not have exactly
6 characters is rejected — for every rooms table and players table alike,
so before any room lookup or player creation. -/
theorem roomCode_generation_and_length_guard (draws : List Nat)
    (rooms : List RoomRow) (tbl : List PlayerRow)
    (roomCode playerName newId : String) (draw : Nat)
    (hlen : draws.length = 6) (hin : ∀ d ∈ draws, d < 32) :
    (generateRoomCode draws).length = 6 ∧
    (∀ ch ∈ generateRoomCode draws, ch ∈ roomCodeAlphabet) ∧
    roomCodeAlphabet.length = 32 ∧
    ('I' ∉ roomCodeAlphabet ∧ 'O' ∉ roomCodeAlphabet ∧
      '0' ∉ roomCodeAlphabet ∧ '1' ∉ roomCodeAlphabet) ∧
    ((normalizeCode roomCode).length ≠ 6 →
      joinRoom rooms tbl roomCode playerName newId draw = none ∧
      playersAfterJoin rooms tbl roomCode playerName newId draw = tbl) := by
  obtain ⟨hl, hm⟩ := generateRoomCode_foldl_spec draws [] hin
  refine ⟨?_, ?_, by decide, by decide, fun hbad => ?_⟩
  · simpa [generateRoomCode, hlen] using hl
  · intro ch hch
    rcases hm ch hch with h | h
    · simp at h
    · exact h
  · have hnone : joinRoom rooms tbl roomCode playerName newId draw = none := by
      simp [joinRoom, hbad]
    exact ⟨hnone, by simp [playersAfterJoin, hnone]⟩

/-- Witness for `roomCode_generation_and_length_guard` at concrete draws and
a concrete short code. -/
theorem roomCode_generation_witness :
    (generateRoomCode [0, 5, 31, 7, 19, 26]).length = 6 ∧
    (∀ ch ∈ generateRoomCode [0, 5, 31, 7, 19, 26], ch ∈ roomCodeAlphabet) ∧
    roomCodeAlphabet.length = 32 ∧
    ('I' ∉ roomCodeAlphabet ∧ 'O' ∉ roomCodeAlphabet ∧
      '0' ∉ roomCodeAlphabet ∧ '1' ∉ roomCodeAlphabet) ∧
    ((normalizeCode "abc").length ≠ 6 →
      joinRoom [] [] "abc" "Bea" "p9" 0 = none ∧
      playersAfterJoin [] [] "abc" "Bea" "p9" 0 = []) :=
  roomCode_generation_and_length_guard [0, 5, 31, 7, 19, 26] [] [] "abc" "Bea" "p9" 0
    (by decide) (by decide)

end DemolishDash



namespace DemolishDash

/-! ## Game completion and score accumulation
(GameManager.ts `completeGame`, lines 78-104; server part_000 lines 201-223
and 324-375) -/

inductive SessionStatus where
  | pending
  | active
  | completed
deriving DecidableEq, Repr

/-- A `game_sessions` row projected to the fields `completeGame` touches. -/
structure SessionRow where
  id : String
  room_id : String
  game_type : String
  game_number : Nat
  status : SessionStatus
  results : List GameResult
deriving DecidableEq, Repr

/-- The row rewrite of `api.gameSessions.update(gameId, { status:
'completed', results })` (GameManager.ts lines 81-85, server PATCH part_000
lines 324-375): the matching row gets the new status and results. -/
def completeSessionRow (gameId : String) (results : List GameResult)
    (s : SessionRow) : SessionRow :=
  if s.id == gameId then { s with status := SessionStatus.completed, results := results }
  else s

/-- The session table after the completion PATCH. -/
def updateSessionCompleted (sessions : List SessionRow) (gameId : String)
    (results : List GameResult) : List SessionRow :=
  sessions.map (completeSessionRow gameId results)

/-- `GET /api/players/:playerId`: first row with the id. -/
def lookupPlayer (tbl : List PlayerRow) (pid : String) : Option PlayerRow :=
  tbl.find? fun p => p.id == pid

/-- The row rewrite of one `UPDATE players SET total_score = $1 WHERE id = $2`
(part_000 lines 201-223). -/
def setScoreRow (tgt : String) (v : Int) (q : PlayerRow) : PlayerRow :=
  if q.id == tgt then { q with total_score := v } else q

/-- One iteration of the score loop (GameManager.ts lines 88-97): read the
player, then PATCH `total_score` to `player.total_score + result.points`
on the row with that id.  A missing player leaves the table unchanged (the
inner catch only logs). -/
def applyScore (tbl : List PlayerRow) (res : GameResult) : List PlayerRow :=
  match lookupPlayer tbl res.player_id with
  | some p => tbl.map (setScoreRow res.player_id (p.total_score + res.points))
  | none => tbl

/-- The whole `for (const result of results)` score loop. -/
def applyScores (tbl : List PlayerRow) (results : List GameResult) : List PlayerRow :=
  results.foldl applyScore tbl

/-- `GameManager.completeGame`: mark the session completed with the results
stored, then fold the score updates over the results list. -/
def completeGame (sessions : List SessionRow) (tbl : List PlayerRow)
    (gameId : String) (results : List GameResult) :
    List SessionRow × List PlayerRow :=
  (updateSessionCompleted sessions gameId results, applyScores tbl results)

/-- Score-setting rewrites keep row ids. -/
theorem setScoreRow_id (tgt : String) (v : Int) (q : PlayerRow) :
    (setScoreRow tgt v q).id = q.id := by
  unfold setScoreRow
  by_cases h : q.id = tgt <;> simp [h]

/-- Player lookup commutes with a score-setting row rewrite. -/
theorem lookupPlayer_map_setScoreRow (tbl : List PlayerRow) (tgt : String)
    (v : Int) (pid : String) :
    lookupPlayer (tbl.map (setScoreRow tgt v)) pid
      = (lookupPlayer tbl pid).map (setScoreRow tgt v) := by
  induction tbl with
  | nil => rfl
  | cons q rest ih =>
    unfold lookupPlayer at *
    rw [List.map_cons]
    cases hqp : (q.id == pid) with
    | true =>
      rw [List.find?_cons_of_pos (p := fun r => r.id == pid)
          (a := setScoreRow tgt v q) _ (by simp only [setScoreRow_id]; exact hqp),
        List.find?_cons_of_pos (p := fun r => r.id == pid) (a := q) _ hqp]
      rfl
    | false =>
      rw [List.find?_cons_of_neg (p := fun r => r.id == pid)
          (a := setScoreRow tgt v q) _ (by simp only [setScoreRow_id]; simp [hqp]),
        List.find?_cons_of_neg (p := fun r => r.id == pid) (a := q) _ (by simp [hqp]), ih]

/-- A score write for one result leaves lookups of any other id unchanged. -/
theorem lookupPlayer_applyScore_other (tbl : List PlayerRow) (res : GameResult)
    (pid : String) (hne : pid ≠ res.player_id) :
    lookupPlayer (applyScore tbl res) pid = lookupPlayer tbl pid := by
  unfold applyScore
  cases hl : lookupPlayer tbl res.player_id with
  | none => rfl
  | some p =>
    rw [lookupPlayer_map_setScoreRow]
    cases hfind : lookupPlayer tbl pid with
    | none => rfl
    | some r =>
      have hr : r.id = pid := by
        have := List.find?_some hfind
        simpa using this
      simp [setScoreRow, hr, hne]

/-- A score write for a result sets that player's score to its previous
value plus the result's points. -/
theorem lookupPlayer_applyScore_self (tbl : List PlayerRow) (res : GameResult)
    (p : PlayerRow) (hl : lookupPlayer tbl res.player_id = some p) :
    lookupPlayer (applyScore tbl res) res.player_id
      = some { p with total_score := p.total_score + res.points } := by
  unfold applyScore
  rw [hl, lookupPlayer_map_setScoreRow, hl]
  have hp : p.id = res.player_id := by
    have := List.find?_some hl
    simpa using this
  simp [setScoreRow, hp]

/-- Folding score writes for results that never mention an id leaves that
id's lookup unchanged. -/
theorem lookupPlayer_applyScores_untouched (results : List GameResult)
    (tbl : List PlayerRow) (pid : String)
    (hnone : ∀ r ∈ results, r.player_id ≠ pid) :
    lookupPlayer (applyScores tbl results) pid = lookupPlayer tbl pid := by
  induction results generalizing tbl with
  | nil => rfl
  | cons r rest ih =>
    have h1 : pid ≠ r.player_id := fun h => hnone r (by simp) h.symm
    calc lookupPlayer (applyScores (applyScore tbl r) rest) pid
        = lookupPlayer (applyScore tbl r) pid :=
          ih (applyScore tbl r) fun r' hr' => hnone r' (List.mem_cons_of_mem r hr')
      _ = lookupPlayer tbl pid := lookupPlayer_applyScore_other tbl r pid h1

/-- With one result per player, the score fold adds each result's points to
that player's previous score. -/
theorem lookupPlayer_applyScores_self (results : List GameResult)
    (tbl : List PlayerRow)
    (hnodup : (results.map GameResult.player_id).Nodup) :
    ∀ r ∈ results, ∀ p, lookupPlayer tbl r.player_id = some p →
      lookupPlayer (applyScores tbl results) r.player_id
        = some { p with total_score := p.total_score + r.points } := by
  induction results generalizing tbl with
  | nil => intro r hr; exact absurd hr (by simp)
  | cons r0 rest ih =>
    have hnotin : r0.player_id ∉ rest.map GameResult.player_id := by
      simp only [List.map_cons, List.nodup_cons] at hnodup
      exact hnodup.1
    have hrestnodup : (rest.map GameResult.player_id).Nodup := by
      simp only [List.map_cons, List.nodup_cons] at hnodup
      exact hnodup.2
    intro r hr p hp
    rcases List.mem_cons.mp hr with rfl | hrrest
    · have h2 : ∀ r' ∈ rest, r'.player_id ≠ r.player_id := by
        intro r' hr' heq
        exact hnotin (heq ▸ List.mem_map_of_mem GameResult.player_id hr')
      calc lookupPlayer (applyScores (applyScore tbl r) rest) r.player_id
          = lookupPlayer (applyScore tbl r) r.player_id :=
            lookupPlayer_applyScores_untouched rest (applyScore tbl r) r.player_id h2
        _ = some { p with total_score := p.total_score + r.points } :=
            lookupPlayer_applyScore_self tbl r p hp
    · have hneq : r.player_id ≠ r0.player_id := by
        intro heq
        exact hnotin (heq ▸ List.mem_map_of_mem GameResult.player_id hrrest)
      have hp' : lookupPlayer (applyScore tbl r0) r.player_id = some p := by
        rw [lookupPlayer_applyScore_other tbl r0 r.player_id hneq]
        exact hp
      exact ih (applyScore tbl r0) hrestnodup r hrrest p hp'

/-- Completion rewrites keep session row ids. -/
theorem completeSessionRow_id (gameId : String) (results : List GameResult)
    (s : SessionRow) : (completeSessionRow gameId results s).id = s.id := by
  unfold completeSessionRow
  by_cases h : s.id = gameId <;> simp [h]

/-- Session lookup after the completion PATCH returns the completed row. -/
theorem find_updateSessionCompleted (sessions : List SessionRow)
    (gameId : String) (results : List GameResult) (s : SessionRow)
    (hs : sessions.find? (fun t => t.id == gameId) = some s) :
    (updateSessionCompleted sessions gameId results).find? (fun t => t.id == gameId)
      = some { s with status := SessionStatus.completed, results := results } := by
  induction sessions with
  | nil => simp at hs
  | cons t rest ih =>
    unfold updateSessionCompleted at *
    cases htg : (t.id == gameId) with
    | true =>
      rw [List.find?_cons_of_pos (p := fun u => u.id == gameId) (a := t) _ htg] at hs
      have hst : t = s := by simpa using hs
      subst hst
      rw [List.map_cons,
        List.find?_cons_of_pos (p := fun u => u.id == gameId)
          (a := completeSessionRow gameId results t) _
          (by simp only [completeSessionRow_id]; exact htg)]
      have ht : t.id = gameId := by simpa using htg
      simp [completeSessionRow, ht]
    | false =>
      rw [List.find?_cons_of_neg (p := fun u => u.id == gameId) (a := t) _
        (by simp [htg])] at hs
      rw [List.map_cons,
        List.find?_cons_of_neg (p := fun u => u.id == gameId)
          (a := completeSessionRow gameId results t) _
          (by simp only [completeSessionRow_id]; simp [htg])]
      exact ih hs

/-- C8: one `completeGame` call stores the results on the session row with
status `completed`, and adds each ranked player's points to that player's
previous cumulative score, while players outside the results keep their
scores. -/
theorem completeGame_spec (sessions : List SessionRow) (tbl : List PlayerRow)
    (gameId : String) (results : List GameResult) (s : SessionRow)
    (hnodup : (results.map GameResult.player_id).Nodup)
    (hs : sessions.find? (fun t => t.id == gameId) = some s) :
    ((completeGame sessions tbl gameId results).1.find? (fun t => t.id == gameId)
        = some { s with status := SessionStatus.completed, results := results }) ∧
    (∀ r ∈ results, ∀ p, lookupPlayer tbl r.player_id = some p →
      lookupPlayer (completeGame sessions tbl gameId results).2 r.player_id
        = some { p with total_score := p.total_score + r.points }) ∧
    (∀ pid, (∀ r ∈ results, r.player_id ≠ pid) →
      lookupPlayer (completeGame sessions tbl gameId results).2 pid
        = lookupPlayer tbl pid) :=
  ⟨find_updateSessionCompleted sessions gameId results s hs,
    lookupPlayer_applyScores_self results tbl hnodup,
    fun pid h => lookupPlayer_applyScores_untouched results tbl pid h⟩

/-- Witness for `completeGame_spec` on a concrete two-player session. -/
theorem completeGame_spec_witness :
    lookupPlayer (completeGame [⟨"g1", "r1", "tag_bomb", 1, SessionStatus.active, []⟩]
        [⟨"p1", "r1", "Ann", "blue", 3⟩, ⟨"p2", "r1", "Bob", "red", 0⟩]
        "g1" [⟨"p1", "Ann", 1, 2⟩, ⟨"p2", "Bob", 2, 1⟩]).2 "p1"
      = some ⟨"p1", "r1", "Ann", "blue", 3 + 2⟩ :=
  (completeGame_spec [⟨"g1", "r1", "tag_bomb", 1, SessionStatus.active, []⟩]
      [⟨"p1", "r1", "Ann", "blue", 3⟩, ⟨"p2", "r1", "Bob", "red", 0⟩]
      "g1" [⟨"p1", "Ann", 1, 2⟩, ⟨"p2", "Bob", 2, 1⟩]
      ⟨"g1", "r1", "tag_bomb", 1, SessionStatus.active, []⟩
      (by decide) (by decide)).2.1
    ⟨"p1", "Ann", 1, 2⟩ (by decide) ⟨"p1", "r1", "Ann", "blue", 3⟩ (by decide)

end DemolishDash

namespace DemolishDash

/-! ## Convergence ranking (TagBombGame.tsx `gameLoop` lines 204-265; the
same computation appears in PlatformPushGame.tsx lines 259-316 and
part_001 lines 275-327).  The `ghosts` Map is keyed by player id and built
from the roster, so it is embedded as the roster list itself. -/

/-- `state.ghosts.get(playerId)`: the roster entry with the id. -/
def ghostLookup (roster : List PlayerRec) (pid : String) : Option PlayerRec :=
  roster.find? fun p => p.id == pid

/-- `remainingPlayers = [...ghosts.values()].filter(g => !eliminated.includes(g.id))`. -/
def remainingOf (roster : List PlayerRec) (eliminated : List String) : List PlayerRec :=
  roster.filter fun g => !(eliminated.contains g.id)

/-- The `eliminatedInOrder.forEach((playerId, index) => ...)` loop
(TagBombGame.tsx lines 238-250): each id found in the ghost map yields a
record with `rank = index + 2` and `points = totalPlayers - rank + 1`; a
missing id is skipped while the index still advances. -/
def elimRecords (roster : List PlayerRec) (total : Nat) :
    Nat → List String → List GameResult
  | _, [] => []
  | i, pid :: rest =>
    match ghostLookup roster pid with
    | some g =>
      { player_id := g.id, player_name := g.name, rank := i + 2,
        points := (total : Int) - ((i + 2 : Nat) : Int) + 1 }
        :: elimRecords roster total (i + 1) rest
    | none => elimRecords roster total (i + 1) rest

/-- The winner's record: rank 1 with `points = totalPlayers`
(TagBombGame.tsx lines 231-236). -/
def winnerRecord (total : Nat) (winner : PlayerRec) : GameResult :=
  { player_id := winner.id, player_name := winner.name, rank := 1, points := (total : Int) }

/-- The records pushed before the defensive fallback loop: the winner
followed by the reversed elimination list. -/
def baseRecords (roster : List PlayerRec) (eliminated : List String)
    (winner : PlayerRec) : List GameResult :=
  winnerRecord roster.length winner
    :: elimRecords roster roster.length 0 eliminated.reverse

/-- The defensive fallback (TagBombGame.tsx lines 252-263): every roster
player not covered by the records so far gets the worst rank and 1 point. -/
def fallbackRecords (roster : List PlayerRec) (base : List GameResult) :
    List GameResult :=
  roster.filterMap fun p =>
    if (base.map GameResult.player_id).contains p.id then none
    else some { player_id := p.id, player_name := p.name,
                rank := roster.length, points := 1 }

/-- The convergence step of the game loop: when exactly one player remains,
build the winner record, the reversed-elimination records and the fallback
records, and sort them by ascending rank (`results.sort((a, b) => a.rank -
b.rank)`, a stable sort); otherwise the loop continues and no ranking is
produced. -/
def computeResults (roster : List PlayerRec) (eliminated : List String) :
    Option (List GameResult) :=
  match remainingOf roster eliminated with
  | [winner] =>
    some (List.insertionSort (fun a b => a.rank ≤ b.rank)
      (baseRecords roster eliminated winner
        ++ fallbackRecords roster (baseRecords roster eliminated winner)))
  | _ => none

/-- With duplicate-free ids, filtering the roster for the winner's id keeps
exactly the winner. -/
theorem filter_id_eq_winner (roster : List PlayerRec) (winner : PlayerRec)
    (hnodup : (roster.map PlayerRec.id).Nodup) (hwin : winner ∈ roster) :
    roster.filter (fun g => g.id == winner.id) = [winner] := by
  induction roster with
  | nil => cases hwin
  | cons p rest ih =>
    simp only [List.map_cons, List.nodup_cons] at hnodup
    rcases List.mem_cons.mp hwin with rfl | hrest
    · rw [List.filter_cons_of_pos (by simp)]
      have hnil : rest.filter (fun g => g.id == winner.id) = [] := by
        refine List.filter_eq_nil_iff.mpr fun g hg hgp => ?_
        refine hnodup.1 ?_
        have hid : g.id = winner.id := by simpa using hgp
        exact hid ▸ List.mem_map_of_mem PlayerRec.id hg
      rw [hnil]
    · have hne : p.id ≠ winner.id := by
        intro h
        exact hnodup.1 (h ▸ List.mem_map_of_mem PlayerRec.id hrest)
      rw [List.filter_cons_of_neg (by simp [hne])]
      exact ih hnodup.2 hrest

/-- When the elimination list holds exactly the non-winner ids, the
remaining-players filter yields exactly the winner. -/
theorem remainingOf_eq_winner (roster : List PlayerRec) (eliminated : List String)
    (winner : PlayerRec)
    (hnodup : (roster.map PlayerRec.id).Nodup) (hwin : winner ∈ roster)
    (hchar : ∀ x, x ∈ eliminated ↔ x ≠ winner.id ∧ x ∈ roster.map PlayerRec.id) :
    remainingOf roster eliminated = [winner] := by
  unfold remainingOf
  have hcongr : ∀ g ∈ roster,
      (!(eliminated.contains g.id)) = (g.id == winner.id) := by
    intro g hg
    by_cases h : g.id = winner.id
    · have hnotmem : winner.id ∉ eliminated :=
        fun hmem => ((hchar winner.id).mp hmem).1 rfl
      simp [h, hnotmem]
    · have hmem : g.id ∈ eliminated :=
        (hchar g.id).mpr ⟨h, List.mem_map_of_mem PlayerRec.id hg⟩
      simp [h, hmem]
  rw [List.filter_congr hcongr]
  exact filter_id_eq_winner roster winner hnodup hwin

/-- Looking a present id up in the ghost map succeeds and returns the entry
with that id. -/
theorem ghostLookup_mem (roster : List PlayerRec) (pid : String)
    (h : pid ∈ roster.map PlayerRec.id) :
    ∃ g, ghostLookup roster pid = some g ∧ g.id = pid := by
  unfold ghostLookup
  rcases List.mem_map.mp h with ⟨g, hg, hgid⟩
  have hsome : (roster.find? fun p => p.id == pid).isSome := by
    rw [List.find?_isSome]
    exact ⟨g, hg, by simp [hgid]⟩
  cases hfind : roster.find? fun p => p.id == pid with
  | none => rw [hfind] at hsome; simp at hsome
  | some g' =>
    refine ⟨g', rfl, ?_⟩
    have := List.find?_some hfind
    simpa using this

/-- The elimination records: one record per listed id in order, ranks
counting up from `i + 2`, each with `points = total - rank + 1`. -/
theorem elimRecords_spec (roster : List PlayerRec) (total : Nat)
    (l : List String) (hl : ∀ pid ∈ l, pid ∈ roster.map PlayerRec.id) :
    ∀ i : Nat,
      (elimRecords roster total i l).map GameResult.player_id = l ∧
      (elimRecords roster total i l).map GameResult.rank
        = List.range' (i + 2) l.length ∧
      ∀ r ∈ elimRecords roster total i l,
        r.points = (total : Int) - (r.rank : Int) + 1 := by
  induction l with
  | nil => exact fun i => ⟨rfl, rfl, fun r hr => absurd hr (by simp [elimRecords])⟩
  | cons pid rest ih =>
    intro i
    obtain ⟨g, hg, hgid⟩ := ghostLookup_mem roster pid (hl pid (by simp))
    have hrest : ∀ q ∈ rest, q ∈ roster.map PlayerRec.id :=
      fun q hq => hl q (List.mem_cons_of_mem pid hq)
    obtain ⟨ih1, ih2, ih3⟩ := ih hrest (i + 1)
    have hstep : elimRecords roster total i (pid :: rest)
        = { player_id := g.id, player_name := g.name, rank := i + 2,
            points := (total : Int) - ((i + 2 : Nat) : Int) + 1 }
          :: elimRecords roster total (i + 1) rest := by
      rw [elimRecords, hg]
    rw [hstep]
    refine ⟨by simp [ih1, hgid], ?_, ?_⟩
    · simp only [List.map_cons, ih2, List.length_cons]
      rw [List.range'_succ]
    · intro r hr
      rcases List.mem_cons.mp hr with rfl | hr2
      · simp
      · exact ih3 r hr2

end DemolishDash

namespace DemolishDash

/-- C1: when the convergence step finds exactly one remaining player —
under the precondition that the elimination list is duplicate-free and holds
exactly the roster ids minus the winner's — the completed ranking has one
record per roster player, its ranks are a permutation of `1..N`, and every
record scores `points = N - rank + 1`. -/
theorem convergence_ranking_complete (roster : List PlayerRec)
    (eliminated : List String) (winner : PlayerRec)
    (hN : 2 ≤ roster.length)
    (hnodup : (roster.map PlayerRec.id).Nodup)
    (hwin : winner ∈ roster)
    (helim : List.Perm eliminated ((roster.map PlayerRec.id).erase winner.id)) :
    ∃ res, computeResults roster eliminated = some res ∧
      res.length = roster.length ∧
      List.Perm (res.map GameResult.rank) (List.range' 1 roster.length) ∧
      (∀ r ∈ res, r.points = (roster.length : Int) - (r.rank : Int) + 1) ∧
      List.Perm (res.map GameResult.player_id) (roster.map PlayerRec.id) := by
  have hwid : winner.id ∈ roster.map PlayerRec.id :=
    List.mem_map_of_mem PlayerRec.id hwin
  have hchar : ∀ x, x ∈ eliminated ↔ x ≠ winner.id ∧ x ∈ roster.map PlayerRec.id := by
    intro x
    rw [helim.mem_iff]
    exact hnodup.mem_erase_iff
  have hA : remainingOf roster eliminated = [winner] :=
    remainingOf_eq_winner roster eliminated winner hnodup hwin hchar
  have hrevids : ∀ pid ∈ eliminated.reverse, pid ∈ roster.map PlayerRec.id := by
    intro pid hp
    exact ((hchar pid).mp (List.mem_reverse.mp hp)).2
  obtain ⟨hB1, hB2, hB3⟩ :=
    elimRecords_spec roster roster.length eliminated.reverse hrevids 0
  have hlenE : eliminated.length = roster.length - 1 := by
    have h := helim.length_eq
    rwa [List.length_erase_of_mem hwid, List.length_map] at h
  have hbase_pid : (baseRecords roster eliminated winner).map GameResult.player_id
      = winner.id :: eliminated.reverse := by
    simp [baseRecords, winnerRecord, hB1]
  have hbase_rank : (baseRecords roster eliminated winner).map GameResult.rank
      = 1 :: List.range' 2 eliminated.length := by
    simp [baseRecords, winnerRecord]
    rw [hB2]
    simp
  have hfall : fallbackRecords roster (baseRecords roster eliminated winner) = [] := by
    refine List.filterMap_eq_nil_iff.mpr fun p hp => ?_
    have hmem : p.id ∈ (baseRecords roster eliminated winner).map GameResult.player_id := by
      rw [hbase_pid]
      by_cases h : p.id = winner.id
      · exact h ▸ List.mem_cons_self _ _
      · exact List.mem_cons_of_mem _
          (List.mem_reverse.mpr
            ((hchar p.id).mpr ⟨h, List.mem_map_of_mem PlayerRec.id hp⟩))
    simp [hmem]
  have hres : computeResults roster eliminated
      = some (List.insertionSort (fun a b => a.rank ≤ b.rank)
          (baseRecords roster eliminated winner)) := by
    simp only [computeResults, hA, hfall, List.append_nil]
  have hperm : List.Perm
      (List.insertionSort (fun a b => a.rank ≤ b.rank)
        (baseRecords roster eliminated winner))
      (baseRecords roster eliminated winner) :=
    List.perm_insertionSort _ _
  have hbaselen : (baseRecords roster eliminated winner).length = roster.length := by
    have h1 : (elimRecords roster roster.length 0 eliminated.reverse).length
        = eliminated.length := by
      have := congrArg List.length hB1
      simpa using this
    simp only [baseRecords, List.length_cons, h1]
    omega
  refine ⟨_, hres, ?_, ?_, ?_, ?_⟩
  · rw [hperm.length_eq, hbaselen]
  · refine (hperm.map GameResult.rank).trans ?_
    rw [hbase_rank, hlenE]
    conv_rhs => rw [show roster.length = (roster.length - 1) + 1 by omega,
      List.range'_succ]
  · intro r hr
    have hr2 : r ∈ baseRecords roster eliminated winner := hperm.mem_iff.mp hr
    rcases List.mem_cons.mp hr2 with rfl | hrelim
    · simp [winnerRecord]
    · exact hB3 r hrelim
  · refine (hperm.map GameResult.player_id).trans ?_
    rw [hbase_pid]
    have h1 : List.Perm eliminated.reverse ((roster.map PlayerRec.id).erase winner.id) :=
      (List.reverse_perm eliminated).trans helim
    exact (List.Perm.cons winner.id h1).trans (List.perm_cons_erase hwid).symm

/-- Witness for `convergence_ranking_complete`: a three-player roster whose
elimination list holds exactly the two non-winners. -/
theorem convergence_ranking_complete_witness :
    ∃ res, computeResults [⟨"a", "Ann"⟩, ⟨"b", "Bob"⟩, ⟨"c", "Cyd"⟩] ["c", "a"]
        = some res ∧
      res.length = ([⟨"a", "Ann"⟩, ⟨"b", "Bob"⟩, ⟨"c", "Cyd"⟩] : List PlayerRec).length ∧
      List.Perm (res.map GameResult.rank)
        (List.range' 1 ([⟨"a", "Ann"⟩, ⟨"b", "Bob"⟩, ⟨"c", "Cyd"⟩] : List PlayerRec).length) ∧
      (∀ r ∈ res, r.points
        = (([⟨"a", "Ann"⟩, ⟨"b", "Bob"⟩, ⟨"c", "Cyd"⟩] : List PlayerRec).length : Int)
            - (r.rank : Int) + 1) ∧
      List.Perm (res.map GameResult.player_id)
        (([⟨"a", "Ann"⟩, ⟨"b", "Bob"⟩, ⟨"c", "Cyd"⟩] : List PlayerRec).map PlayerRec.id) :=
  convergence_ranking_complete [⟨"a", "Ann"⟩, ⟨"b", "Bob"⟩, ⟨"c", "Cyd"⟩] ["c", "a"]
    ⟨"b", "Bob"⟩ (by decide) (by decide) (by decide) (by decide)

end DemolishDash
